import Mathlib

/-!
# git-cleanup — verification of the branch/worktree classification core

A shallow embedding of `src/git.ts` (the classification and mutation core of the
`git-cleanup` tool).  JavaScript strings are modelled as `List Char`; the external
command executor is modelled by passing the text each query would return as an
explicit argument (for `getRemovableWorktrees`, as an environment of per-path
query results).  Functions whose interesting behaviour is the *sequence of
external calls they issue* (`deleteBranches`, `ignoreWorktree`,
`getRemovableWorktrees`, `setIgnoredBranches`) additionally get a `...Calls`
companion returning the list of issued calls; concurrent fan-out
(`Promise.all`) is linearised in program order, which is sound for the
properties proved here (they only constrain which calls appear and that calls
stay on the correct side of an `await` barrier).
-/

/-- JavaScript strings are modelled as lists of characters. -/
abbrev Str := List Char

/-- The literal `"[gone]"` upstream-tracking annotation (`git.ts:80-84`). -/
def gone : Str := "[gone]".data

/-- The literal `"[gone] *"` line marking a gone upstream on the currently
checked-out branch (`git.ts:21-22`). -/
def goneStar : Str := "[gone] *".data

/-- The literal `"true"` config value (`git.ts:27`). -/
def trueText : Str := "true".data

/-- The literal `"-backup"` infix of the backup-branch naming pattern
(`git.ts:90,97`). -/
def bkSuffix : Str := "-backup".data

/-- The literal `"worktree "` porcelain line marker (`git.ts:43,148`). -/
def wtMark : Str := "worktree ".data

/-- The literal `"branch refs/heads/"` porcelain line marker (`git.ts:150`). -/
def brMark : Str := "branch refs/heads/".data

/-- The `"\n\n"` separator between porcelain worktree blocks (`git.ts:142`). -/
def nl2 : Str := ['\n', '\n']

/-- Modelled from the spec: `stripPrefix` is imported by `git.ts` from
`lib.ts`, but the current version of `lib.ts` defining it is not among the
sources; its unit tests (`lib_test.ts`) pin the behaviour exactly: the input
with the prefix removed when the input starts with the prefix, `null`
otherwise, and the unchanged input for a blank prefix. -/
def stripPrefix (line p : Str) : Option Str :=
  if p.isPrefixOf line then some (line.drop p.length) else none

/-- `getWorktrees` (`git.ts:40-46`): keep the porcelain lines carrying the
`worktree ` marker, strip the marker (`mapNotNullish` = `filterMap`), and drop
the first entry — the primary worktree (`.slice(1)`). -/
def getWorktrees (lines : List Str) : List Str :=
  (lines.filterMap (fun line => stripPrefix line wtMark)).drop 1

/-- `branch.endsWith("[gone]") ? branch.slice(0, -6) : branch`
(`git.ts:80`): strip the gone marker from the end of a branch line. -/
def stripGone (branch : Str) : Str :=
  if gone.isSuffixOf branch then branch.take (branch.length - 6) else branch

/-- The `branches` array of `getRemovableBranches` (`git.ts:78-80`): every
branch line with the gone marker stripped. -/
def branchesOf (branchLines : List Str) : List Str :=
  branchLines.map stripGone

/-- The `mergedBranches` array of `getRemovableBranches` (`git.ts:82-84`):
the lines ending in the gone marker, with the marker stripped. -/
def mergedOf (branchLines : List Str) : List Str :=
  (branchLines.filter (fun branch => gone.isSuffixOf branch)).map
    (fun branch => branch.take (branch.length - 6))

/-- Whether position `i` splits `name` as required by the anchored regex
`^(.+)-backup\d*$` (`git.ts:90,97`): the part after `i` is the literal
`-backup` followed by digits only. -/
def splitOk (name : Str) (i : Nat) : Bool :=
  bkSuffix.isPrefixOf (name.drop i) && ((name.drop i).drop 7).all Char.isDigit

/-- The capture group of `/^(.+)-backup\d*$/.exec(branch)?.[1]`
(`git.ts:90,97`).  The anchored match with a greedy `(.+)` captures the
*longest* non-empty parent `p` such that `branch = p ++ "-backup" ++ digits`;
split positions are therefore tried from the right.  (The decomposition is in
fact unique — `backup_decomp_unique` below — so the search order only mirrors
the regex engine's behaviour.) -/
def backupParent (name : Str) : Option Str :=
  (List.range name.length).reverse.findSome? fun i =>
    if i ≠ 0 ∧ splitOk name i = true then some (name.take i) else none

/-- The filter predicate of `getRemovableBranches` (`git.ts:86-98`): the
branch was deleted upstream, or is a backup branch of a branch deleted
upstream, or is an orphaned backup branch (its parent is no branch at all).
The source's early `return true` on `merged` is rendered as `||`. -/
def removable (branchLines : List Str) (branch : Str) : Bool :=
  (mergedOf branchLines).any (fun mergedBranch =>
      branch == mergedBranch || backupParent branch == some mergedBranch) ||
  (match backupParent branch with
   | some parentBranch => !((branchesOf branchLines).contains parentBranch)
   | none => false)

/-- `RemovableBranch` (`git.ts:62-65`). -/
structure RemovableBranch where
  name : Str
  ignored : Bool
deriving DecidableEq, Repr

/-- `getRemovableBranches` (`git.ts:72-100`), as a function of the two query
results it consumes: the lines of `git branch --format
'%(refname:short)%(upstream:track)'` and the previously ignored branches
(a set in the source; membership-tested only). -/
def getRemovableBranches (branchLines ignoredBranches : List Str) :
    List RemovableBranch :=
  ((branchesOf branchLines).filter (removable branchLines)).map
    (fun branch => ⟨branch, ignoredBranches.contains branch⟩)

/-- `RemovableWorktree` (`git.ts:5-8`). -/
structure RemovableWorktree where
  path : Str
  ignored : Bool
deriving DecidableEq, Repr

/-- The executor's replies to the queries `getRemovableWorktrees` issues:
the lines of `git worktree list --porcelain`, and per worktree path the lines
of the tracking query and the text of the `cleanup.ignore` config lookup
(empty text when the key is absent or the lookup fails, as `.noThrow()`
yields). -/
structure WorktreeEnv where
  worktreeListLines : List Str
  branchTrackLines : Str → List Str
  ignoreText : Str → Str

/-- `getRemovableWorktrees` (`git.ts:15-35`): for every non-primary worktree,
keep it iff some tracking line is exactly `[gone] *`, carrying whether its
`cleanup.ignore` config value is `true`; the `map`-to-`null`-then-`filter`
of the source is `filterMap`. -/
def getRemovableWorktrees (env : WorktreeEnv) : List RemovableWorktree :=
  (getWorktrees env.worktreeListLines).filterMap fun path =>
    let deleted := (env.branchTrackLines path).any (fun line => line == goneStar)
    let ignored := env.ignoreText path == trueText
    if deleted then some ⟨path, ignored⟩ else none

/-- `getIgnoredBranches` (`git.ts:105-108`), as a function of the text the
`git config get cleanup.ignoredBranches` query produced (empty when the key
is absent or the query failed, as `.noThrow().text()` yields): split on
spaces when non-empty, else the empty list. -/
def getIgnoredBranches (text : Str) : List Str :=
  if 0 < text.length then text.splitOn ' ' else []

/-- The value `branches.join(" ")` that `setIgnoredBranches`
(`git.ts:113-115`) writes under `cleanup.ignoredBranches`. -/
def setIgnoredBranchesValue (branches : List Str) : Str :=
  List.intercalate [' '] branches

/-- First index at which `sep` occurs in `s` (leftmost match), as JavaScript
`indexOf` finds it. -/
def findSub (sep s : Str) : Option Nat :=
  (List.range (s.length + 1)).find? (fun i => sep.isPrefixOf (s.drop i))

/-- Fuel-driven worker for `splitOnStr`; the fuel (initially the length of
the string) bounds the number of splits. -/
def splitOnStrAux (sep : Str) : Nat → Str → List Str
  | 0, s => [s]
  | fuel + 1, s =>
    match findSub sep s with
    | none => [s]
    | some i => s.take i :: splitOnStrAux sep fuel (s.drop (i + sep.length))

/-- JavaScript `s.split(sep)` for a non-empty separator: split at each
leftmost non-overlapping occurrence. -/
def splitOnStr (sep s : Str) : List Str :=
  splitOnStrAux sep s.length s

/-- `getBranchWorktrees` (`git.ts:139-156`), as a function of the raw text of
`git worktree list --porcelain`: split into blank-line-separated blocks; in
each block take the first `worktree `-marked and the first
`branch refs/heads/`-marked line (`firstNotNullishOf` = `findSome?`); a block
missing either line — or whose extracted path or branch name is empty, which
is falsy in `worktree && branch` — yields no entry.  The entry list feeds
`new Map(...)`, whose lookup is `mapGet` below. -/
def getBranchWorktrees (text : Str) : List (Str × Str) :=
  (splitOnStr nl2 text).filterMap fun sec =>
    let lines := sec.splitOn '\n'
    let worktree := lines.findSome? (fun line => stripPrefix line wtMark)
    let branch := lines.findSome? (fun line => stripPrefix line brMark)
    match worktree, branch with
    | some w, some b => if w.isEmpty || b.isEmpty then none else some (b, w)
    | _, _ => none

/-- `Map.get` on a JavaScript `Map` built from an entry list: for a duplicated
key the later entry overwrites the earlier, so the last matching entry wins. -/
def mapGet (entries : List (Str × Str)) (key : Str) : Option Str :=
  (entries.reverse.find? (fun e => e.1 == key)).map (fun e => e.2)

/-- One external call issued through the command executor `$`. -/
inductive Call where
  | worktreeList
  | branchTrack (path : Str)
  | configGetIgnore (path : Str)
  | setWorktreeConfigToggle
  | setIgnoreFlag (path : Str)
  | switchDetach (path : Str)
  | branchDeleteBatch (branches : List Str)
  | configSetIgnoredBranches (value : Str)
deriving DecidableEq, Repr

/-- The calls `getRemovableWorktrees` (`git.ts:15-35`) issues: one worktree
listing, then per non-primary worktree its tracking query and its
`cleanup.ignore` config lookup (concurrent in the source; linearised in
program order).  Note the current code issues *no*
`extensions.worktreeconfig` toggle here — it suppresses the lookup's stderr
instead (`git.ts:24-26`). -/
def getRemovableWorktreesCalls (env : WorktreeEnv) : List Call :=
  Call.worktreeList ::
    (getWorktrees env.worktreeListLines).flatMap fun path =>
      [Call.branchTrack path, Call.configGetIgnore path]

/-- The calls `ignoreWorktree` (`git.ts:58-60`) issues: one shell invocation
chaining, via `&&`, the idempotent `extensions.worktreeconfig` toggle and
then the per-worktree `cleanup.ignore` write — two git commands in that
order. -/
def ignoreWorktreeCalls (path : Str) : List Call :=
  [Call.setWorktreeConfigToggle, Call.setIgnoreFlag path]

/-- The calls `setIgnoredBranches` (`git.ts:113-115`) issues: always exactly
one write of the space-joined value (also for the empty list). -/
def setIgnoredBranchesCalls (branches : List Str) : List Call :=
  [Call.configSetIgnoredBranches (setIgnoredBranchesValue branches)]

/-- The calls `deleteBranches` (`git.ts:120-134`) issues, as a function of
the porcelain text its `getBranchWorktrees` query would return: nothing for
an empty list; otherwise the worktree listing, one detach per requested
branch that maps to a worktree (`mapNotNullish` = `filterMap`; concurrent in
the source, linearised in list order, all awaited), and after that barrier
the single batched force-delete naming every requested branch. -/
def deleteBranchesCalls (worktreeText : Str) (branches : List Str) : List Call :=
  if branches.isEmpty then []
  else
    let detaching := branches.filterMap (mapGet (getBranchWorktrees worktreeText))
    Call.worktreeList ::
      (detaching.map Call.switchDetach ++ [Call.branchDeleteBatch branches])


/-! ## The backup-name pattern -/

/-- `takeWhile` stops exactly at the first element failing the predicate. -/
theorem takeWhile_append_not {q : Char → Bool} {c : Char} :
    ∀ (l₁ l₂ : Str), (∀ a ∈ l₁, q a = true) → q c = false →
      (l₁ ++ c :: l₂).takeWhile q = l₁
  | [], l₂, _, hc => by simp [List.takeWhile_cons, hc]
  | a :: t, l₂, h, hc => by
    have ha := h a (by simp)
    simp only [List.cons_append, List.takeWhile_cons, ha, if_true]
    rw [takeWhile_append_not t l₂ (fun x hx => h x (by simp [hx])) hc]

/-- Reading a backup name from the right: everything after the `-backup`
marker is the maximal run of trailing digits. -/
theorem takeWhile_digits_of_backup (p d : Str) (hd : d.all Char.isDigit = true) :
    (p ++ bkSuffix ++ d).reverse.takeWhile Char.isDigit = d.reverse := by
  have hrev : (p ++ bkSuffix ++ d).reverse =
      d.reverse ++ 'p' :: (['u', 'k', 'c', 'a', 'b', '-'] ++ p.reverse) := by
    simp [List.reverse_append, show bkSuffix.reverse = ['p', 'u', 'k', 'c', 'a', 'b', '-'] from rfl]
  rw [hrev]
  exact takeWhile_append_not _ _
    (fun a ha => List.all_eq_true.mp hd a (List.mem_reverse.mp ha)) (by decide)

/-- A string decomposes as `parent ++ "-backup" ++ digits` in at most one
way: the digit block is forced (trailing digit run), hence so is the parent. -/
theorem backup_decomp_unique (p₁ d₁ p₂ d₂ : Str)
    (h₁ : d₁.all Char.isDigit = true) (h₂ : d₂.all Char.isDigit = true)
    (h : p₁ ++ bkSuffix ++ d₁ = p₂ ++ bkSuffix ++ d₂) : p₁ = p₂ ∧ d₁ = d₂ := by
  have e := congrArg (fun l : Str => l.reverse.takeWhile Char.isDigit) h
  simp only [takeWhile_digits_of_backup p₁ d₁ h₁, takeWhile_digits_of_backup p₂ d₂ h₂] at e
  have hd : d₁ = d₂ := List.reverse_inj.mp e
  subst hd
  exact ⟨List.append_cancel_right (List.append_cancel_right h), rfl⟩

/-- `backupParent` returns exactly the (unique) non-empty parent for which
the name is `parent ++ "-backup" ++ digits`, and `none` when the name is not
of that shape. -/
theorem backupParent_eq_some (name p : Str) :
    backupParent name = some p ↔
      p ≠ [] ∧ ∃ d, d.all Char.isDigit = true ∧ name = p ++ bkSuffix ++ d := by
  constructor
  · intro h
    obtain ⟨i, hi, hf⟩ := List.exists_of_findSome?_eq_some h
    rw [List.mem_reverse, List.mem_range] at hi
    split at hf
    case isTrue hc =>
      obtain ⟨hi0, hsplit⟩ := hc
      rw [Option.some_inj] at hf
      rw [splitOk, Bool.and_eq_true] at hsplit
      obtain ⟨hpre, hdig⟩ := hsplit
      obtain ⟨t, ht⟩ := List.isPrefixOf_iff_prefix.mp hpre
      have ht7 : (name.drop i).drop 7 = t := by
        rw [← ht, show (7 : Nat) = bkSuffix.length from rfl, List.drop_left]
      refine ⟨?_, t, by rwa [ht7] at hdig, ?_⟩
      · rw [← hf]
        intro hnil
        rcases List.take_eq_nil_iff.mp hnil with h0 | h0
        · exact hi0 h0
        · simp [h0] at hi
      · rw [← hf, List.append_assoc, ht]
        exact (List.take_append_drop i name).symm
    case isFalse => exact absurd hf (by simp)
  · rintro ⟨hp, d, hd, rfl⟩
    rcases h : backupParent (p ++ bkSuffix ++ d) with _ | q
    · exfalso
      rw [backupParent, List.findSome?_eq_none_iff] at h
      have hmem : p.length ∈ (List.range (p ++ bkSuffix ++ d).length).reverse := by
        rw [List.mem_reverse, List.mem_range, List.length_append, List.length_append,
          show bkSuffix.length = 7 from rfl]
        omega
      have := h p.length hmem
      rw [if_pos] at this
      · exact absurd this (by simp)
      · refine ⟨by simpa [List.length_eq_zero] using hp, ?_⟩
        rw [splitOk, List.append_assoc, List.drop_left, Bool.and_eq_true]
        refine ⟨List.isPrefixOf_iff_prefix.mpr (List.prefix_append _ _), ?_⟩
        rw [show (7 : Nat) = bkSuffix.length from rfl, List.drop_left]
        exact hd
    · -- the search returned some parent `q`; by uniqueness it is `p`
      have hq := h
      rw [backupParent] at hq
      obtain ⟨i, _, hf⟩ := List.exists_of_findSome?_eq_some hq
      split at hf
      case isFalse => exact absurd hf (by simp)
      case isTrue hc =>
        obtain ⟨hi0, hsplit⟩ := hc
        rw [Option.some_inj] at hf
        rw [splitOk, Bool.and_eq_true] at hsplit
        obtain ⟨hpre, hdig⟩ := hsplit
        obtain ⟨t, ht⟩ := List.isPrefixOf_iff_prefix.mp hpre
        have ht7 : ((p ++ bkSuffix ++ d).drop i).drop 7 = t := by
          rw [← ht, show (7 : Nat) = bkSuffix.length from rfl, List.drop_left]
        have hdig' : t.all Char.isDigit = true := by rwa [ht7] at hdig
        have hdecomp : p ++ bkSuffix ++ d =
            ((p ++ bkSuffix ++ d).take i) ++ bkSuffix ++ t := by
          conv_lhs => rw [← List.take_append_drop i (p ++ bkSuffix ++ d), ← ht]
          rw [← List.append_assoc]
        have := backup_decomp_unique p d _ t hd hdig' hdecomp
        rw [← hf, ← this.1]

/-- A name consisting of the backup marker and digits only has no (non-empty)
parent: the regex `^(.+)-backup\d*$` does not match it. -/
theorem backupParent_backup_only (d : Str) (hd : d.all Char.isDigit = true) :
    backupParent (bkSuffix ++ d) = none := by
  rcases h : backupParent (bkSuffix ++ d) with _ | p
  · rfl
  · exfalso
    obtain ⟨hp, d', hd', hdecomp⟩ := (backupParent_eq_some _ _).mp h
    have h0 : ([] : Str) ++ bkSuffix ++ d = p ++ bkSuffix ++ d' := by simpa using hdecomp
    exact hp ((backup_decomp_unique [] d p d' hd hd' h0).1).symm

/-! ## The branch classifier -/

/-- Stripping the gone marker it just appended returns the name. -/
theorem stripGone_append_gone (x : Str) : stripGone (x ++ gone) = x := by
  rw [stripGone, if_pos (List.isSuffixOf_iff_suffix.mpr (List.suffix_append x gone))]
  rw [List.length_append, show gone.length = 6 from rfl]
  have hx : x.length + 6 - 6 = x.length := by omega
  rw [hx, List.take_left]

/-- A name is in the `mergedBranches` array iff the raw listing holds its
line with the gone marker appended. -/
theorem mem_mergedOf (lines : List Str) (x : Str) :
    x ∈ mergedOf lines ↔ x ++ gone ∈ lines := by
  rw [mergedOf, List.mem_map]
  constructor
  · rintro ⟨b, hb, rfl⟩
    rw [List.mem_filter] at hb
    obtain ⟨hbl, hsuf⟩ := hb
    obtain ⟨u, hu⟩ := List.isSuffixOf_iff_suffix.mp hsuf
    have hb' : b.take (b.length - 6) = u := by
      rw [← hu, List.length_append, show gone.length = 6 from rfl]
      have h6 : u.length + 6 - 6 = u.length := by omega
      rw [h6, List.take_left]
    rw [hb', hu]
    exact hbl
  · intro hx
    refine ⟨x ++ gone, List.mem_filter.mpr
      ⟨hx, List.isSuffixOf_iff_suffix.mpr (List.suffix_append x gone)⟩, ?_⟩
    rw [List.length_append, show gone.length = 6 from rfl]
    have hx6 : x.length + 6 - 6 = x.length := by omega
    rw [hx6, List.take_left]

/-- Every merged branch is also in the stripped branch list. -/
theorem mergedOf_subset_branchesOf (lines : List Str) (x : Str)
    (hx : x ∈ mergedOf lines) : x ∈ branchesOf lines := by
  rw [mem_mergedOf] at hx
  exact List.mem_map.mpr ⟨x ++ gone, hx, stripGone_append_gone x⟩

/-- The filter predicate of `getRemovableBranches`, characterised: the
branch's own line carries the gone marker, or it is a backup branch whose
parent's line carries the gone marker, or it is a backup branch whose parent
is no listed branch at all. -/
theorem removable_iff (branchLines : List Str) (branch : Str) :
    removable branchLines branch = true ↔
      branch ++ gone ∈ branchLines ∨
      (∃ p, backupParent branch = some p ∧ p ++ gone ∈ branchLines) ∨
      (∃ p, backupParent branch = some p ∧ p ∉ branchesOf branchLines) := by
  rw [removable, Bool.or_eq_true, List.any_eq_true]
  have h1 : (∃ m ∈ mergedOf branchLines,
        (branch == m || backupParent branch == some m) = true) ↔
      (branch ++ gone ∈ branchLines ∨
        ∃ p, backupParent branch = some p ∧ p ++ gone ∈ branchLines) := by
    constructor
    · rintro ⟨m, hm, hor⟩
      rw [Bool.or_eq_true, beq_iff_eq, beq_iff_eq] at hor
      rcases hor with rfl | hbp
      · exact Or.inl ((mem_mergedOf _ _).mp hm)
      · exact Or.inr ⟨m, hbp, (mem_mergedOf _ _).mp hm⟩
    · rintro (hg | ⟨p, hbp, hpg⟩)
      · exact ⟨branch, (mem_mergedOf _ _).mpr hg, by simp⟩
      · exact ⟨p, (mem_mergedOf _ _).mpr hpg, by simp [hbp]⟩
  have h2 : (match backupParent branch with
        | some parentBranch => !((branchesOf branchLines).contains parentBranch)
        | none => false) = true ↔
      (∃ p, backupParent branch = some p ∧ p ∉ branchesOf branchLines) := by
    rcases hb : backupParent branch with _ | p <;> simp [hb, List.elem_iff]
  rw [h1, h2]
  exact or_assoc

/-- A name is carried by some record of `getRemovableBranches` iff it is a
stripped listing entry passing the removability filter. -/
theorem mem_getRemovableBranches (branchLines ignoredBranches : List Str)
    (name : Str) :
    (∃ r ∈ getRemovableBranches branchLines ignoredBranches, r.name = name) ↔
      name ∈ branchesOf branchLines ∧ removable branchLines name = true := by
  rw [getRemovableBranches]
  constructor
  · rintro ⟨r, hr, hname⟩
    rw [List.mem_map] at hr
    obtain ⟨b, hb, rfl⟩ := hr
    rw [List.mem_filter] at hb
    have hbn : b = name := hname
    subst hbn
    exact hb
  · rintro ⟨hmem, hrem⟩
    exact ⟨⟨name, ignoredBranches.contains name⟩,
      List.mem_map.mpr ⟨name, List.mem_filter.mpr ⟨hmem, hrem⟩, rfl⟩, rfl⟩

/-- **C1**: a branch name appears in the result of `getRemovableBranches`
iff it is a (stripped) listed branch and: its own line carries the gone
marker, or it is a backup branch of a parent whose line carries the gone
marker, or it is a backup branch whose parent appears nowhere in the branch
listing; names satisfying none of these never appear. -/
theorem C1_removable_branch_iff (branchLines ignoredBranches : List Str)
    (name : Str) :
    (∃ r ∈ getRemovableBranches branchLines ignoredBranches, r.name = name) ↔
      (name ∈ branchesOf branchLines ∧
        (name ++ gone ∈ branchLines ∨
         (∃ p, backupParent name = some p ∧ p ++ gone ∈ branchLines) ∨
         (∃ p, backupParent name = some p ∧ p ∉ branchesOf branchLines))) := by
  rw [mem_getRemovableBranches, removable_iff]

/-- **C3**: the classifier's parent of a backup-patterned name is obtained by
stripping exactly one trailing `-backup`-plus-digits suffix — `backupParent`
returns `some p` exactly when the name is `p ++ "-backup" ++ digits` with
`p` non-empty (and such a decomposition is unique, so only one strip ever
happens); in particular the rule is not recursive: `a-backup-backup2` is
evaluated against parent `a-backup`, not `a`. -/
theorem C3_backup_parent_single_strip :
    (∀ name p, backupParent name = some p ↔
        p ≠ [] ∧ ∃ d, d.all Char.isDigit = true ∧ name = p ++ bkSuffix ++ d) ∧
      backupParent "a-backup-backup2".data = some "a-backup".data :=
  ⟨backupParent_eq_some, by decide⟩

/-- **C10**: a branch whose entire name is `-backup` followed by digits (an
empty parent) is never treated as a backup branch: it appears in the result
of `getRemovableBranches` iff its own line carries the gone marker. -/
theorem C10_backup_without_parent (branchLines ignoredBranches : List Str)
    (d : Str) (hd : d.all Char.isDigit = true) :
    (∃ r ∈ getRemovableBranches branchLines ignoredBranches,
        r.name = bkSuffix ++ d) ↔
      (bkSuffix ++ d) ++ gone ∈ branchLines := by
  rw [mem_getRemovableBranches, removable_iff, backupParent_backup_only d hd]
  simp only [false_and, exists_false, or_false, reduceCtorEq]
  constructor
  · rintro ⟨-, h⟩
    exact h
  · intro h
    exact ⟨List.mem_map.mpr ⟨(bkSuffix ++ d) ++ gone, h, stripGone_append_gone _⟩, h⟩

/-- Witness for C10 at the concrete listing `["-backup2[gone]"]`. -/
theorem C10_backup_without_parent_witness :
    (['2'] : Str).all Char.isDigit = true ∧
      ((∃ r ∈ getRemovableBranches ["-backup2[gone]".data] [],
          r.name = bkSuffix ++ ['2']) ↔
        (bkSuffix ++ ['2']) ++ gone ∈ ["-backup2[gone]".data]) :=
  ⟨by decide, C10_backup_without_parent ["-backup2[gone]".data] [] ['2'] (by decide)⟩

/-! ## The worktree classifier -/

/-- Every record of `getRemovableWorktrees` carries the path of a listed
(non-primary) worktree. -/
theorem path_mem_of_mem_getRemovableWorktrees (env : WorktreeEnv)
    (r : RemovableWorktree) (hr : r ∈ getRemovableWorktrees env) :
    r.path ∈ getWorktrees env.worktreeListLines := by
  rw [getRemovableWorktrees, List.mem_filterMap] at hr
  obtain ⟨p, hp, hsome⟩ := hr
  simp only at hsome
  split at hsome
  · rw [Option.some_inj] at hsome
    rw [← hsome]
    exact hp
  · cases hsome

/-- **C2**: a listed worktree appears in the result of
`getRemovableWorktrees` iff its tracking-query output contains a line that
is exactly `[gone] *`; a worktree without such a line (detached, or with
only a non-current branch gone) does not appear at all — in particular not
with `ignored = false`. -/
theorem C2_worktree_candidacy (env : WorktreeEnv) (path : Str)
    (hpath : path ∈ getWorktrees env.worktreeListLines) :
    (∃ r ∈ getRemovableWorktrees env, r.path = path) ↔
      goneStar ∈ env.branchTrackLines path := by
  constructor
  · rintro ⟨r, hr, hpathEq⟩
    rw [getRemovableWorktrees, List.mem_filterMap] at hr
    obtain ⟨p, _, hsome⟩ := hr
    simp only at hsome
    split at hsome
    case isTrue hdel =>
      rw [Option.some_inj] at hsome
      have hrp : r.path = p := by rw [← hsome]
      rw [hrp] at hpathEq
      subst hpathEq
      obtain ⟨x, hx, hbe⟩ := List.any_eq_true.mp hdel
      rw [beq_iff_eq] at hbe
      rw [← hbe]
      exact hx
    case isFalse => cases hsome
  · intro hgone
    refine ⟨⟨path, env.ignoreText path == trueText⟩,
      List.mem_filterMap.mpr ⟨path, hpath, ?_⟩, rfl⟩
    simp only
    rw [if_pos (List.any_eq_true.mpr ⟨goneStar, hgone, by simp⟩)]

/-- Witness for C2: a two-worktree listing whose secondary worktree `/w1`
has its current branch gone upstream. -/
theorem C2_worktree_candidacy_witness :
    ("/w1".data ∈ getWorktrees ["worktree /main".data, "worktree /w1".data]) ∧
      ((∃ r ∈ getRemovableWorktrees
          (⟨["worktree /main".data, "worktree /w1".data],
            fun _ => [goneStar], fun _ => []⟩ : WorktreeEnv),
          r.path = "/w1".data) ↔
        goneStar ∈ [goneStar]) :=
  ⟨by decide,
    C2_worktree_candidacy
      (⟨["worktree /main".data, "worktree /w1".data],
        fun _ => [goneStar], fun _ => []⟩ : WorktreeEnv)
      "/w1".data (by decide)⟩

/-- **C7 counterexample**: in a (degenerate) listing where two worktree
lines carry the same path, the primary worktree's path *does* appear in the
path list returned by `getWorktrees`, so the claim as stated — quantified
over every worktree listing — fails. -/
theorem C7_counterexample :
    ((["worktree /a".data, "worktree /a".data].filterMap
        (fun line => stripPrefix line wtMark)).head? = some "/a".data) ∧
      "/a".data ∈ getWorktrees ["worktree /a".data, "worktree /a".data] := by
  decide

/-- **C7 (amended)**: for every worktree listing in which no two entries
share a path (as the porcelain format guarantees for a real repository), the
first-listed (primary) worktree's path is excluded from `getWorktrees` and
never appears in any removable-worktree classification result, regardless of
its tracking state. -/
theorem C7_primary_worktree_excluded (env : WorktreeEnv) (p0 : Str)
    (hnodup : (env.worktreeListLines.filterMap
        (fun line => stripPrefix line wtMark)).Nodup)
    (hp0 : (env.worktreeListLines.filterMap
        (fun line => stripPrefix line wtMark)).head? = some p0) :
    p0 ∉ getWorktrees env.worktreeListLines ∧
      ∀ r ∈ getRemovableWorktrees env, r.path ≠ p0 := by
  have hmain : p0 ∉ getWorktrees env.worktreeListLines := by
    rw [getWorktrees]
    rcases hL : env.worktreeListLines.filterMap (fun line => stripPrefix line wtMark)
      with _ | ⟨a, t⟩
    · rw [hL] at hp0
      cases hp0
    · rw [hL] at hp0 hnodup
      rw [List.head?_cons, Option.some_inj] at hp0
      subst hp0
      rw [List.drop_one, List.tail_cons]
      exact (List.nodup_cons.mp hnodup).1
  refine ⟨hmain, fun r hr hrp => ?_⟩
  exact hmain (hrp ▸ path_mem_of_mem_getRemovableWorktrees env r hr)

/-- Witness for the amended C7 at a concrete two-worktree listing whose
secondary worktree is gone upstream (so the classification result is
non-empty). -/
theorem C7_primary_worktree_excluded_witness :
    ((["worktree /main".data, "worktree /w1".data].filterMap
        (fun line => stripPrefix line wtMark)).Nodup) ∧
      ("/main".data ∉ getWorktrees ["worktree /main".data, "worktree /w1".data] ∧
        ∀ r ∈ getRemovableWorktrees
          (⟨["worktree /main".data, "worktree /w1".data],
            fun _ => [goneStar], fun _ => []⟩ : WorktreeEnv),
          r.path ≠ "/main".data) :=
  ⟨by decide,
    C7_primary_worktree_excluded
      (⟨["worktree /main".data, "worktree /w1".data],
        fun _ => [goneStar], fun _ => []⟩ : WorktreeEnv)
      "/main".data (by decide) (by decide)⟩

/-! ## Ignored-branches persistence -/

/-- The written config value is non-empty for every branch list other than
`[]` and the singleton of the empty name. -/
theorem setIgnoredBranchesValue_pos (branches : List Str)
    (h0 : branches ≠ []) (h1 : branches ≠ [[]]) :
    0 < (setIgnoredBranchesValue branches).length := by
  rcases branches with _ | ⟨b, t⟩
  · exact absurd rfl h0
  rcases t with _ | ⟨c, t'⟩
  · have hb : b ≠ [] := by
      intro h
      exact h1 (by rw [h])
    simp [setIgnoredBranchesValue, List.intercalate, List.length_pos, hb]
  · simp [setIgnoredBranchesValue, List.intercalate, List.intersperse]

/-- **C6 counterexample**: the singleton list of the empty name (which
contains no space) does not round-trip: the write stores the empty string,
which reads back as the empty list. -/
theorem C6_counterexample :
    getIgnoredBranches (setIgnoredBranchesValue [([] : Str)]) ≠ [([] : Str)] := by
  decide

/-- **C6 (amended)**: every list of space-free branch names other than the
singleton of the empty name — including the empty list — round-trips through
`setIgnoredBranches` / `getIgnoredBranches` in order; reading an absent,
failed or blank stored value yields the empty list; and the write is always
issued, exactly once, also for the empty list. -/
theorem C6_ignored_round_trip :
    (∀ branches : List Str, (∀ b ∈ branches, ' ' ∉ b) → branches ≠ [[]] →
        getIgnoredBranches (setIgnoredBranchesValue branches) = branches) ∧
      getIgnoredBranches [] = [] ∧
      (∀ branches : List Str, setIgnoredBranchesCalls branches =
        [Call.configSetIgnoredBranches (setIgnoredBranchesValue branches)]) := by
  refine ⟨?_, rfl, fun _ => rfl⟩
  intro branches hsp hne1
  rcases hbr : branches with _ | ⟨b, t⟩
  · rfl
  · rw [← hbr]
    have hlen := setIgnoredBranchesValue_pos branches (by rw [hbr]; simp) hne1
    rw [getIgnoredBranches, if_pos hlen]
    exact List.splitOn_intercalate branches ' ' hsp (by rw [hbr]; simp)

/-- Witness for the amended C6 at the concrete list `["a", "b"]`. -/
theorem C6_ignored_round_trip_witness :
    getIgnoredBranches (setIgnoredBranchesValue [['a'], ['b']]) = [['a'], ['b']] :=
  C6_ignored_round_trip.1 [['a'], ['b']] (by decide) (by decide)

/-! ## Branch deletion -/

/-- **C9**: `deleteBranches` applied to the empty list issues no external
call at all — the executor is never invoked. -/
theorem C9_delete_branches_empty_noop (worktreeText : Str) :
    deleteBranchesCalls worktreeText [] = [] := rfl

/-- For a non-empty branch list the call trace of `deleteBranches` is the
worktree listing, the detaches of the mapped branches in order, then the
single batched delete. -/
theorem deleteBranchesCalls_eq (worktreeText : Str) (branches : List Str)
    (hne : branches ≠ []) :
    deleteBranchesCalls worktreeText branches =
      Call.worktreeList ::
        ((branches.filterMap (mapGet (getBranchWorktrees worktreeText))).map
            Call.switchDetach ++ [Call.branchDeleteBatch branches]) := by
  rw [deleteBranchesCalls, if_neg]
  rw [Bool.not_eq_true, List.isEmpty_eq_false]
  exact hne

/-- Counting a detach call in a list of detach calls counts the detached
path. -/
theorem count_map_switchDetach (l : List Str) (w : Str) :
    (l.map Call.switchDetach).count (Call.switchDetach w) = l.count w := by
  induction l with
  | nil => rfl
  | cons a t ih =>
    rw [List.map_cons, List.count_cons, List.count_cons, ih]
    by_cases h : a = w <;> simp [h]

/-- **C4**: for every non-empty branch list, the trace of `deleteBranches`
contains exactly one detach per requested name that the branch→worktree map
sends to a worktree (none for unmapped names), exactly one batched delete —
which names all requested branches and is the last call, so every detach
completes before it. -/
theorem C4_detach_before_delete (worktreeText : Str) (branches : List Str)
    (hne : branches ≠ []) :
    (∀ w, (deleteBranchesCalls worktreeText branches).count
        (Call.switchDetach w) =
      (branches.filter (fun b =>
        mapGet (getBranchWorktrees worktreeText) b == some w)).length) ∧
    (deleteBranchesCalls worktreeText branches).count
        (Call.branchDeleteBatch branches) = 1 ∧
    (∀ ns, Call.branchDeleteBatch ns ∈ deleteBranchesCalls worktreeText branches →
      ns = branches) ∧
    (deleteBranchesCalls worktreeText branches).getLast? =
      some (Call.branchDeleteBatch branches) := by
  rw [deleteBranchesCalls_eq worktreeText branches hne]
  refine ⟨?_, ?_, ?_, ?_⟩
  · intro w
    rw [List.count_cons, List.count_append, count_map_switchDetach,
      List.count_filterMap, List.countP_eq_length_filter]
    simp
  · rw [List.count_cons, List.count_append]
    have h0 : ((branches.filterMap
          (mapGet (getBranchWorktrees worktreeText))).map
            Call.switchDetach).count (Call.branchDeleteBatch branches) = 0 := by
      rw [List.count_eq_zero]
      intro h
      obtain ⟨a, -, ha⟩ := List.mem_map.mp h
      cases ha
    rw [h0]
    simp
  · intro ns hns
    rcases List.mem_cons.mp hns with h | h
    · cases h
    rcases List.mem_append.mp h with h' | h'
    · obtain ⟨a, -, ha⟩ := List.mem_map.mp h'
      cases ha
    · have heq := List.mem_singleton.mp h'
      injection heq
  · rw [← List.cons_append, List.getLast?_concat]

/-- Witness for C4: deleting `["x", "y"]` where `x` is checked out in `/w1`
and `y` nowhere yields exactly one detach of `/w1`, and the batched delete
is the last call. -/
theorem C4_detach_before_delete_witness :
    (deleteBranchesCalls
        "worktree /main\nbranch refs/heads/main\n\nworktree /w1\nbranch refs/heads/x".data
        ["x".data, "y".data]).count (Call.switchDetach "/w1".data) = 1 ∧
      (deleteBranchesCalls
          "worktree /main\nbranch refs/heads/main\n\nworktree /w1\nbranch refs/heads/x".data
          ["x".data, "y".data]).getLast? =
        some (Call.branchDeleteBatch ["x".data, "y".data]) := by
  have h := C4_detach_before_delete
    "worktree /main\nbranch refs/heads/main\n\nworktree /w1\nbranch refs/heads/x".data
    ["x".data, "y".data] (by decide)
  refine ⟨?_, h.2.2.2⟩
  rw [h.1 "/w1".data]
  decide

/-! ## The worktreeconfig toggle -/

/-- **C5 counterexample**: in a run of the worktree classifier over a listing
with one secondary worktree, a per-worktree ignore flag *is* read, yet the
`extensions.worktreeconfig` toggle is issued zero times — not exactly once,
and not before the read. -/
theorem C5_counterexample :
    (getRemovableWorktreesCalls
        (⟨["worktree /main".data, "worktree /w1".data],
          fun _ => [goneStar], fun _ => []⟩ : WorktreeEnv)).count
        Call.setWorktreeConfigToggle = 0 ∧
      Call.configGetIgnore "/w1".data ∈
        getRemovableWorktreesCalls
          (⟨["worktree /main".data, "worktree /w1".data],
            fun _ => [goneStar], fun _ => []⟩ : WorktreeEnv) := by
  decide

/-- **C5 (amended)**: the worktree classifier never issues the
`extensions.worktreeconfig` toggle at all (it reads the per-worktree ignore
flags with errors suppressed); instead each `ignoreWorktree` invocation
issues the toggle immediately before writing that worktree's ignore flag —
once per ignore-marking, not once per classification run. -/
theorem C5_toggle_only_in_ignore_worktree :
    (∀ env : WorktreeEnv,
        Call.setWorktreeConfigToggle ∉ getRemovableWorktreesCalls env) ∧
      ∀ path, ignoreWorktreeCalls path =
        [Call.setWorktreeConfigToggle, Call.setIgnoreFlag path] := by
  refine ⟨fun env h => ?_, fun _ => rfl⟩
  rw [getRemovableWorktreesCalls] at h
  rcases List.mem_cons.mp h with h' | h'
  · cases h'
  · obtain ⟨p, -, hp⟩ := List.mem_flatMap.mp h'
    rcases List.mem_cons.mp hp with h2 | h2
    · cases h2
    rcases List.mem_cons.mp h2 with h3 | h3
    · cases h3
    · cases h3

/-! ## The branch→worktree map -/

/-- **C8 counterexample**: a (degenerate) porcelain block holding both a
worktree line and a branch line, but with an empty path, yields no map entry
at all — the empty extracted path is falsy in `worktree && branch` — so the
claim as stated, quantified over every worktree listing, fails. -/
theorem C8_counterexample :
    (∃ sec ∈ splitOnStr nl2 "worktree \nbranch refs/heads/x".data,
        (sec.splitOn '\n').findSome? (fun line => stripPrefix line wtMark) =
            some [] ∧
          (sec.splitOn '\n').findSome? (fun line => stripPrefix line brMark) =
            some "x".data) ∧
      getBranchWorktrees "worktree \nbranch refs/heads/x".data = [] := by
  decide

/-- **C8 (amended)**: the entry list of `getBranchWorktrees` holds `(b, w)`
iff some porcelain block's first worktree line carries the non-empty path
`w` and its first branch line the non-empty name `b` (detached blocks, with
no branch line, and blocks with an empty extracted path or name are
excluded); and on the map built from the entries a duplicated branch name
resolves to the worktree of the later entry in listing order. -/
theorem C8_branch_worktree_map (text b w : Str) :
    ((b, w) ∈ getBranchWorktrees text ↔
      ∃ sec ∈ splitOnStr nl2 text,
        (sec.splitOn '\n').findSome? (fun line => stripPrefix line wtMark) =
            some w ∧
          (sec.splitOn '\n').findSome? (fun line => stripPrefix line brMark) =
            some b ∧
          w ≠ [] ∧ b ≠ []) ∧
    ∀ es₁ es₂ : List (Str × Str), (∀ e ∈ es₂, e.1 ≠ b) →
      mapGet (es₁ ++ (b, w) :: es₂) b = some w := by
  constructor
  · rw [getBranchWorktrees]
    constructor
    · intro hmem
      obtain ⟨sec, hsec, hsome⟩ := List.mem_filterMap.mp hmem
      simp only at hsome
      rcases hw : (sec.splitOn '\n').findSome? (fun line => stripPrefix line wtMark)
        with _ | w'
      · rw [hw] at hsome
        rcases hb : (sec.splitOn '\n').findSome? (fun line => stripPrefix line brMark)
          with _ | b' <;> rw [hb] at hsome <;> cases hsome
      rcases hb : (sec.splitOn '\n').findSome? (fun line => stripPrefix line brMark)
        with _ | b'
      · rw [hw, hb] at hsome
        cases hsome
      rw [hw, hb] at hsome
      have hsome' : (if (w'.isEmpty || b'.isEmpty) = true then none
          else some (b', w')) = some (b, w) := hsome
      by_cases hc : (w'.isEmpty || b'.isEmpty) = true
      · rw [if_pos hc] at hsome'
        cases hsome'
      · rw [if_neg hc] at hsome'
        rw [Option.some_inj, Prod.mk.injEq] at hsome'
        obtain ⟨rfl, rfl⟩ := hsome'
        rw [Bool.or_eq_true, not_or] at hc
        obtain ⟨hw0, hb0⟩ := hc
        exact ⟨sec, hsec, hw,
          hb, fun h => hw0 (by rw [h]; rfl), fun h => hb0 (by rw [h]; rfl)⟩
    · rintro ⟨sec, hsec, hw, hb, hwne, hbne⟩
      refine List.mem_filterMap.mpr ⟨sec, hsec, ?_⟩
      simp only
      rw [hw, hb]
      have hc : ¬ ((w.isEmpty || b.isEmpty) = true) := by
        rw [Bool.or_eq_true, not_or]
        exact ⟨fun h => hwne (List.isEmpty_iff.mp h),
          fun h => hbne (List.isEmpty_iff.mp h)⟩
      show (if (w.isEmpty || b.isEmpty) = true then none else some (b, w)) =
        some (b, w)
      rw [if_neg hc]
  · intro es₁ es₂ hlater
    have h2 : List.find? (fun e => e.1 == b) es₂.reverse = none :=
      List.find?_eq_none.mpr fun e he hbe =>
        hlater e (List.mem_reverse.mp he) (by simpa using hbe)
    rw [mapGet, List.reverse_append, List.reverse_cons, List.append_assoc,
      List.find?_append, h2, Option.none_or, List.singleton_append,
      List.find?_cons_of_pos]
    · rfl
    · simp

/-- Witness for the amended C8: a map with a duplicated branch resolves to
the later worktree. -/
theorem C8_branch_worktree_map_witness :
    mapGet [("x".data, "/a".data), ("x".data, "/b".data)] "x".data =
      some "/b".data :=
  (C8_branch_worktree_map [] "x".data "/b".data).2
    [("x".data, "/a".data)] [] (by decide)
